import Mathlib

/-!
Verification of the staker calldata encoder (`src/staker.rs`) of
`uniswap-v3-sdk-rs`.

The encoder builds on-chain call data for the Uniswap V3 staker contract:
claiming rewards (`collect_rewards`), withdrawing a staked position
(`withdraw_token`) and depositing a position into incentive programs
(`encode_deposit`).  Calldata is modelled byte-for-byte: a byte is a `Nat`
below 256, a payload is a `List Nat`, and ABI words are 32-byte big-endian
encodings.  `U256` and `Address` values are modelled as `Nat` (the encoder
never performs arithmetic on them, it only lays their bytes out).
-/

namespace Staker

/-- One 32-byte ABI word: the big-endian byte encoding of `n % 2^256`. -/
def abiWord (n : Nat) : List Nat :=
  (List.range 32).map (fun i => n / 256 ^ (31 - i) % 256)

/-- Right-pad a byte string with zero bytes up to a multiple of 32, as ABI
encoding of `bytes` tails requires. -/
def padRight32 (bs : List Nat) : List Nat :=
  bs ++ List.replicate ((32 - bs.length % 32) % 32) 0

/-- The pool entity is external to the staker module; the encoder only uses
its deterministically derived contract address (`pool.address(None, None)`),
so the pool is modelled by that address. -/
structure Pool where
  address : Nat
  deriving DecidableEq

/-- `IncentiveKey`: identifies a unique staking program. -/
structure IncentiveKey where
  reward_token : Nat
  pool : Pool
  start_time : Nat
  end_time : Nat
  refundee : Nat
  deriving DecidableEq

/-- `ClaimOptions`: options to specify when claiming rewards.
`amount = none` means "claim all". -/
structure ClaimOptions where
  token_id : Nat
  recipient : Nat
  amount : Option Nat
  deriving DecidableEq

/-- `WithdrawOptions`: options to specify when withdrawing a position. -/
structure WithdrawOptions where
  owner : Nat
  data : Option (List Nat)
  deriving DecidableEq

/-- `FullWithdrawOptions`: claim options plus withdraw options. -/
structure FullWithdrawOptions where
  claim_options : ClaimOptions
  withdraw_options : WithdrawOptions
  deriving DecidableEq

/-- `MethodParameters`: calldata plus the value attached to the transaction. -/
structure MethodParameters where
  calldata : List Nat
  value : Nat
  deriving DecidableEq

/-- 4-byte selector of `unstakeToken(key, tokenId)` (`0xf549ab42`). -/
def unstakeTokenSelector : List Nat := [0xf5, 0x49, 0xab, 0x42]

/-- 4-byte selector of `claimReward(rewardToken, to, amountRequested)`
(`0x2f2d783d`). -/
def claimRewardSelector : List Nat := [0x2f, 0x2d, 0x78, 0x3d]

/-- 4-byte selector of `stakeToken(key, tokenId)` (`0xf2d2909b`). -/
def stakeTokenSelector : List Nat := [0xf2, 0xd2, 0x90, 0x9b]

/-- 4-byte selector of `withdrawToken(tokenId, to, data)` (`0x3c423f0b`). -/
def withdrawTokenSelector : List Nat := [0x3c, 0x42, 0x3f, 0x0b]

/-- 4-byte selector of `multicall(bytes[])` (`0xac9650d8`). -/
def multicallSelector : List Nat := [0xac, 0x96, 0x50, 0xd8]

/-- `encode_incentive_key` followed by ABI encoding: the static 5-word tuple
`(rewardToken, pool.address(None, None), startTime, endTime, refundee)`. -/
def encode_incentive_key (k : IncentiveKey) : List Nat :=
  abiWord k.reward_token ++ abiWord k.pool.address ++ abiWord k.start_time
    ++ abiWord k.end_time ++ abiWord k.refundee

/-- `IUniswapV3Staker::unstakeTokenCall { key, tokenId }.abi_encode()`. -/
def encodeUnstakeTokenCall (key : IncentiveKey) (tokenId : Nat) : List Nat :=
  unstakeTokenSelector ++ encode_incentive_key key ++ abiWord tokenId

/-- `IUniswapV3Staker::claimRewardCall { rewardToken, to, amountRequested
}.abi_encode()`. -/
def encodeClaimRewardCall (rewardToken toAddr amountRequested : Nat) : List Nat :=
  claimRewardSelector ++ abiWord rewardToken ++ abiWord toAddr ++ abiWord amountRequested

/-- `IUniswapV3Staker::stakeTokenCall { key, tokenId }.abi_encode()`. -/
def encodeStakeTokenCall (key : IncentiveKey) (tokenId : Nat) : List Nat :=
  stakeTokenSelector ++ encode_incentive_key key ++ abiWord tokenId

/-- `IUniswapV3Staker::withdrawTokenCall { tokenId, to, data }.abi_encode()`:
two static words, then the offset word (`0x60`) of the dynamic `data`
argument, then its length word and right-padded bytes. -/
def encodeWithdrawTokenCall (tokenId toAddr : Nat) (data : List Nat) : List Nat :=
  withdrawTokenSelector ++ abiWord tokenId ++ abiWord toAddr ++ abiWord 96
    ++ abiWord data.length ++ padRight32 data

/-- `encode_claim`: the ordered pair of payloads for one incentive key,
first the unstake call, then the claim-reward call; an absent `amount`
falls back to zero (`unwrap_or_default`). -/
def encode_claim (incentive_key : IncentiveKey) (options : ClaimOptions) :
    List (List Nat) :=
  [encodeUnstakeTokenCall incentive_key options.token_id,
   encodeClaimRewardCall incentive_key.reward_token options.recipient
     (options.amount.getD 0)]

/-- Head offsets of a dynamic `bytes[]` ABI array: each tail starts `base`
bytes after the length word, where `base` accumulates the tail sizes. -/
def multicallOffsets (tails : List (List Nat)) (base : Nat) : List Nat :=
  match tails with
  | [] => []
  | t :: ts => base :: multicallOffsets ts (base + t.length)

/-- Modelled from the spec: `encode_multicall` lives in the multicall module
of this repository, outside the staker source.  Per the spec it is the
standard `multicall(bytes[])` encoding: the 4-byte selector, the offset word
of the array, its length word, one head offset word per payload, then each
payload's length word and right-padded bytes. -/
def encode_multicall (calldatas : List (List Nat)) : List Nat :=
  let tails := calldatas.map (fun c => abiWord c.length ++ padRight32 c)
  multicallSelector ++ abiWord 32 ++ abiWord calldatas.length
    ++ (multicallOffsets tails (32 * calldatas.length)).flatMap abiWord
    ++ tails.flatten

/-- The ordered payload list built by the loop of `collect_rewards`: for each
key, the unstake and claim payloads, then the re-stake payload. -/
def collect_rewards_calldatas (incentive_keys : List IncentiveKey)
    (options : ClaimOptions) : List (List Nat) :=
  incentive_keys.foldl
    (fun calldatas incentive_key =>
      calldatas ++ encode_claim incentive_key options
        ++ [encodeStakeTokenCall incentive_key options.token_id])
    []

/-- `collect_rewards`: aggregate the per-key payloads into one multicall,
with zero attached value. -/
def collect_rewards (incentive_keys : List IncentiveKey)
    (options : ClaimOptions) : MethodParameters :=
  { calldata := encode_multicall (collect_rewards_calldatas incentive_keys options),
    value := 0 }

/-- The ordered payload list built by `withdraw_token`: for each key the
unstake and claim payloads, then the single withdraw payload, whose `data`
falls back to the empty byte string (`unwrap_or_default`). -/
def withdraw_token_calldatas (incentive_keys : List IncentiveKey)
    (withdraw_options : FullWithdrawOptions) : List (List Nat) :=
  (incentive_keys.foldl
      (fun calldatas incentive_key =>
        calldatas ++ encode_claim incentive_key withdraw_options.claim_options)
      [])
    ++ [encodeWithdrawTokenCall withdraw_options.claim_options.token_id
          withdraw_options.withdraw_options.owner
          (withdraw_options.withdraw_options.data.getD [])]

/-- `withdraw_token`: aggregate the per-key payloads and the final withdraw
payload into one multicall, with zero attached value. -/
def withdraw_token (incentive_keys : List IncentiveKey)
    (withdraw_options : FullWithdrawOptions) : MethodParameters :=
  { calldata := encode_multicall (withdraw_token_calldatas incentive_keys withdraw_options),
    value := 0 }

/-- ABI encoding of a dynamic array of incentive-key tuples (the `else`
branch of `encode_deposit`): offset word, length word, then the static
tuples in order. -/
def encodeIncentiveKeyArray (incentive_keys : List IncentiveKey) : List Nat :=
  abiWord 32 ++ abiWord incentive_keys.length
    ++ (incentive_keys.map encode_incentive_key).flatten

/-- `encode_deposit`: a single key is encoded as the bare tuple
(`incentive_keys.len() == 1` branch, which reads `incentive_keys[0]`);
any other length is encoded as a dynamic array of tuples. -/
def encode_deposit (incentive_keys : List IncentiveKey) : List Nat :=
  match incentive_keys with
  | [k] => encode_incentive_key k
  | _ => encodeIncentiveKeyArray incentive_keys

/-- A concrete incentive key, used to instantiate universally quantified
theorems. -/
def testKey : IncentiveKey := ⟨5, ⟨6⟩, 100, 200, 1⟩

/-- A second concrete incentive key. -/
def testKey2 : IncentiveKey := ⟨7, ⟨8⟩, 50, 100, 2⟩

/-- Concrete claim options. -/
def testClaimOptions : ClaimOptions := ⟨1, 3, some 1⟩

/-- Concrete full withdraw options. -/
def testFullWithdrawOptions : FullWithdrawOptions := ⟨⟨1, 3, some 0⟩, ⟨4, some [8]⟩⟩

/-! ### Helper lemmas -/

lemma abiWord_length (n : Nat) : (abiWord n).length = 32 := by
  simp [abiWord]

lemma encode_incentive_key_length (k : IncentiveKey) :
    (encode_incentive_key k).length = 160 := by
  simp [encode_incentive_key, abiWord_length]

lemma foldl_append_eq_flatMap {α β : Type} (g : α → List β) (acc : List β)
    (ks : List α) :
    ks.foldl (fun a k => a ++ g k) acc = acc ++ ks.flatMap g := by
  induction ks generalizing acc with
  | nil => simp
  | cons k t ih => simp [ih, List.flatMap_cons]

lemma length_flatMap_const {α β : Type} (g : α → List β) (m : Nat)
    (hm : ∀ a, (g a).length = m) (ks : List α) :
    (ks.flatMap g).length = m * ks.length := by
  induction ks with
  | nil => simp
  | cons k t ih =>
    simp [List.flatMap_cons, ih, hm k, Nat.mul_succ, Nat.add_comm]

lemma collect_rewards_calldatas_eq (ks : List IncentiveKey) (o : ClaimOptions) :
    collect_rewards_calldatas ks o =
      ks.flatMap (fun k =>
        [encodeUnstakeTokenCall k o.token_id,
         encodeClaimRewardCall k.reward_token o.recipient (o.amount.getD 0),
         encodeStakeTokenCall k o.token_id]) := by
  have h := foldl_append_eq_flatMap
    (fun k => encode_claim k o ++ [encodeStakeTokenCall k o.token_id]) [] ks
  simp only [collect_rewards_calldatas]
  rw [show (fun (calldatas : List (List Nat)) (incentive_key : IncentiveKey) =>
        calldatas ++ encode_claim incentive_key o
          ++ [encodeStakeTokenCall incentive_key o.token_id]) =
      (fun a k => a ++ (encode_claim k o ++ [encodeStakeTokenCall k o.token_id]))
    from by funext a k; simp, h]
  simp [encode_claim]

lemma withdraw_token_calldatas_eq (ks : List IncentiveKey)
    (w : FullWithdrawOptions) :
    withdraw_token_calldatas ks w =
      ks.flatMap (fun k => encode_claim k w.claim_options)
        ++ [encodeWithdrawTokenCall w.claim_options.token_id
              w.withdraw_options.owner (w.withdraw_options.data.getD [])] := by
  simp only [withdraw_token_calldatas,
    foldl_append_eq_flatMap (fun k => encode_claim k w.claim_options) [] ks,
    List.nil_append]

lemma take4_encodeUnstakeTokenCall (k : IncentiveKey) (tid : Nat) :
    (encodeUnstakeTokenCall k tid).take 4 = unstakeTokenSelector := rfl

lemma take4_encodeClaimRewardCall (r t a : Nat) :
    (encodeClaimRewardCall r t a).take 4 = claimRewardSelector := rfl

lemma take4_encodeStakeTokenCall (k : IncentiveKey) (tid : Nat) :
    (encodeStakeTokenCall k tid).take 4 = stakeTokenSelector := rfl

lemma take4_encodeWithdrawTokenCall (tid t : Nat) (d : List Nat) :
    (encodeWithdrawTokenCall tid t d).take 4 = withdrawTokenSelector := rfl

lemma drop_flatMap_const {α β : Type} (g : α → List β) (m : Nat)
    (hm : ∀ a, (g a).length = m) (ks : List α) (i : Nat) :
    (ks.flatMap g).drop (m * i) = (ks.drop i).flatMap g := by
  induction ks generalizing i with
  | nil => simp
  | cons k t ih =>
    cases i with
    | zero => simp
    | succ j =>
      have hlen : m * (j + 1) = (g k).length + m * j := by
        rw [hm k]; ring
      rw [List.flatMap_cons, hlen, List.drop_append, ih j, List.drop_succ_cons]

lemma take_flatMap_head {α β : Type} (g : α → List β) (m : Nat)
    (hm : ∀ a, (g a).length = m) (k : α) (t : List α) :
    ((k :: t).flatMap g).take m = g k := by
  rw [List.flatMap_cons, show m = (g k).length from (hm k).symm, List.take_left]

lemma flatten_map_encode_incentive_key_length (ks : List IncentiveKey) :
    ((ks.map encode_incentive_key).flatten).length = 160 * ks.length := by
  induction ks with
  | nil => simp
  | cons k t ih =>
    simp [encode_incentive_key_length, ih, Nat.mul_succ, Nat.add_comm]

/-! ### Claim theorems -/

/-- Claim C2: for every list of N incentive keys and every `ClaimOptions`,
`collect_rewards` aggregates exactly 3N call payloads, in strict per-key
order: for each key in input order, the unstake call for that key, then the
claim call, then the re-stake call, the stake call built from the same
encoded key and token id as its unstake call; the result's value is zero. -/
theorem collect_rewards_per_key_structure (ks : List IncentiveKey)
    (o : ClaimOptions) :
    collect_rewards_calldatas ks o =
      ks.flatMap (fun k =>
        [encodeUnstakeTokenCall k o.token_id,
         encodeClaimRewardCall k.reward_token o.recipient (o.amount.getD 0),
         encodeStakeTokenCall k o.token_id]) ∧
    (collect_rewards_calldatas ks o).length = 3 * ks.length ∧
    collect_rewards ks o =
      { calldata := encode_multicall (collect_rewards_calldatas ks o),
        value := 0 } := by
  refine ⟨collect_rewards_calldatas_eq ks o, ?_, rfl⟩
  rw [collect_rewards_calldatas_eq ks o]
  exact length_flatMap_const
    (fun k => [encodeUnstakeTokenCall k o.token_id,
      encodeClaimRewardCall k.reward_token o.recipient (o.amount.getD 0),
      encodeStakeTokenCall k o.token_id]) 3 (fun k => rfl) ks

/-- Claim C3: for every list of N incentive keys and every
`FullWithdrawOptions`, `withdraw_token` aggregates exactly 2N+1 call
payloads: per key in input order the unstake/claim pair, then exactly one
withdraw call; no payload carries the stake-token selector (no re-stake
calls); the result's value is zero. -/
theorem withdraw_token_per_key_structure (ks : List IncentiveKey)
    (w : FullWithdrawOptions) :
    withdraw_token_calldatas ks w =
      ks.flatMap (fun k => encode_claim k w.claim_options)
        ++ [encodeWithdrawTokenCall w.claim_options.token_id
              w.withdraw_options.owner (w.withdraw_options.data.getD [])] ∧
    (withdraw_token_calldatas ks w).length = 2 * ks.length + 1 ∧
    (withdraw_token_calldatas ks w).countP
      (fun c => c.take 4 == stakeTokenSelector) = 0 ∧
    withdraw_token ks w =
      { calldata := encode_multicall (withdraw_token_calldatas ks w),
        value := 0 } := by
  refine ⟨withdraw_token_calldatas_eq ks w, ?_, ?_, rfl⟩
  · rw [withdraw_token_calldatas_eq ks w, List.length_append,
      length_flatMap_const (fun k => encode_claim k w.claim_options) 2
        (fun k => rfl) ks]
    simp
  · rw [withdraw_token_calldatas_eq ks w, List.countP_append]
    have h0 : (ks.flatMap (fun k => encode_claim k w.claim_options)).countP
        (fun c => c.take 4 == stakeTokenSelector) = 0 := by
      refine List.countP_eq_zero.mpr ?_
      intro c hc
      obtain ⟨k, -, hck⟩ := List.mem_flatMap.mp hc
      simp only [encode_claim, List.mem_cons, List.mem_singleton,
        List.not_mem_nil, or_false] at hck
      rcases hck with h | h <;> subst h
      · simp only [take4_encodeUnstakeTokenCall]; decide
      · simp only [take4_encodeClaimRewardCall]; decide
    rw [h0]
    have hne : (withdrawTokenSelector == stakeTokenSelector) = false := by decide
    simp [List.countP_cons, take4_encodeWithdrawTokenCall, hne]

/-- Claim C4: `encode_deposit` on a one-element key list returns the bare
ABI tuple encoding of that key, with no array wrapper; on a list of two or
more keys it returns the ABI encoding of a dynamic array of the key tuples,
in input order. -/
theorem encode_deposit_shape (k k2 : IncentiveKey) (ks : List IncentiveKey) :
    encode_deposit [k] = encode_incentive_key k ∧
    encode_deposit (k :: k2 :: ks) =
      abiWord 32 ++ abiWord (k :: k2 :: ks).length
        ++ ((k :: k2 :: ks).map encode_incentive_key).flatten :=
  ⟨rfl, rfl⟩

/-- Claim C5: `ClaimOptions` with `amount = none` and with
`amount = some 0` produce byte-identical outputs of `encode_claim`,
`collect_rewards` and `withdraw_token`: the absent amount is encoded as the
literal zero value. -/
theorem amount_none_encodes_as_zero (k : IncentiveKey)
    (ks : List IncentiveKey) (tid rcpt : Nat) (wo : WithdrawOptions) :
    encode_claim k ⟨tid, rcpt, none⟩ = encode_claim k ⟨tid, rcpt, some 0⟩ ∧
    collect_rewards ks ⟨tid, rcpt, none⟩ =
      collect_rewards ks ⟨tid, rcpt, some 0⟩ ∧
    withdraw_token ks ⟨⟨tid, rcpt, none⟩, wo⟩ =
      withdraw_token ks ⟨⟨tid, rcpt, some 0⟩, wo⟩ :=
  ⟨rfl, rfl, rfl⟩

/-- Claim C6: for every input, the `MethodParameters` returned by
`collect_rewards` and by `withdraw_token` carries an attached value of
exactly zero. -/
theorem method_parameters_value_zero (ks : List IncentiveKey)
    (o : ClaimOptions) (w : FullWithdrawOptions) :
    (collect_rewards ks o).value = 0 ∧ (withdraw_token ks w).value = 0 :=
  ⟨rfl, rfl⟩

/-- Claim C7: keys are processed in caller-supplied order with
caller-supplied multiplicity: whenever position `i` of the input list holds
key `k` (duplicates included), the `i`-th group of three payloads of
`collect_rewards` and the `i`-th pair of payloads of `withdraw_token` are
the ones built from `k`. -/
theorem per_key_groups (ks : List IncentiveKey) (o : ClaimOptions)
    (w : FullWithdrawOptions) (i : Nat) (k : IncentiveKey)
    (h : ks[i]? = some k) :
    ((collect_rewards_calldatas ks o).drop (3 * i)).take 3 =
      [encodeUnstakeTokenCall k o.token_id,
       encodeClaimRewardCall k.reward_token o.recipient (o.amount.getD 0),
       encodeStakeTokenCall k o.token_id] ∧
    ((withdraw_token_calldatas ks w).drop (2 * i)).take 2 =
      encode_claim k w.claim_options := by
  obtain ⟨hi, he⟩ := List.getElem?_eq_some.mp h
  have hdrop : ks.drop i = k :: ks.drop (i + 1) := by
    rw [List.drop_eq_getElem_cons hi, he]
  constructor
  · rw [collect_rewards_calldatas_eq,
      drop_flatMap_const
        (fun a => [encodeUnstakeTokenCall a o.token_id,
          encodeClaimRewardCall a.reward_token o.recipient (o.amount.getD 0),
          encodeStakeTokenCall a o.token_id]) 3 (fun a => rfl) ks i,
      hdrop,
      take_flatMap_head
        (fun a => [encodeUnstakeTokenCall a o.token_id,
          encodeClaimRewardCall a.reward_token o.recipient (o.amount.getD 0),
          encodeStakeTokenCall a o.token_id]) 3 (fun a => rfl)]
  · have hflat : ((ks.drop i).flatMap (fun a => encode_claim a w.claim_options))
        = encode_claim k w.claim_options
          ++ (ks.drop (i + 1)).flatMap (fun a => encode_claim a w.claim_options) := by
      rw [hdrop, List.flatMap_cons]
    have hle : 2 * i ≤ (ks.flatMap (fun a => encode_claim a w.claim_options)).length := by
      rw [length_flatMap_const (fun a => encode_claim a w.claim_options) 2
        (fun a => rfl) ks]
      omega
    rw [withdraw_token_calldatas_eq, List.drop_append_of_le_length hle,
      drop_flatMap_const (fun a => encode_claim a w.claim_options) 2
        (fun a => rfl) ks i,
      hflat, List.append_assoc,
      show 2 = (encode_claim k w.claim_options).length from rfl, List.take_left]

/-- Witness for C7, on a list with a duplicated key: the second group of
payloads is again the group of `testKey`. -/
theorem per_key_groups_witness :
    ((collect_rewards_calldatas [testKey, testKey] testClaimOptions).drop
        (3 * 1)).take 3 =
      [encodeUnstakeTokenCall testKey testClaimOptions.token_id,
       encodeClaimRewardCall testKey.reward_token testClaimOptions.recipient
         (testClaimOptions.amount.getD 0),
       encodeStakeTokenCall testKey testClaimOptions.token_id] ∧
    ((withdraw_token_calldatas [testKey, testKey] testFullWithdrawOptions).drop
        (2 * 1)).take 2 =
      encode_claim testKey testFullWithdrawOptions.claim_options :=
  per_key_groups [testKey, testKey] testClaimOptions testFullWithdrawOptions
    1 testKey rfl

/-- Claim C1 as stated is false: on the empty key list no error of any kind
is produced; `collect_rewards`, `withdraw_token` and `encode_deposit` are
total and return their ordinary (degenerate) outputs. -/
theorem empty_key_list_not_rejected :
    collect_rewards [] testClaimOptions =
      { calldata := encode_multicall [], value := 0 } ∧
    withdraw_token [] testFullWithdrawOptions =
      { calldata := encode_multicall
          [encodeWithdrawTokenCall
            testFullWithdrawOptions.claim_options.token_id
            testFullWithdrawOptions.withdraw_options.owner
            (testFullWithdrawOptions.withdraw_options.data.getD [])],
        value := 0 } ∧
    encode_deposit ([] : List IncentiveKey) = encodeIncentiveKeyArray [] :=
  ⟨rfl, rfl, rfl⟩

/-- Claim C1 amended: empty key lists are accepted, not rejected;
`collect_rewards` builds zero payloads, `withdraw_token` builds only the
single withdraw payload, and `encode_deposit` returns the 64-byte
dynamic-array encoding of an empty key array. -/
theorem empty_key_list_accepted (o : ClaimOptions) (w : FullWithdrawOptions) :
    collect_rewards_calldatas [] o = [] ∧
    withdraw_token_calldatas [] w =
      [encodeWithdrawTokenCall w.claim_options.token_id
        w.withdraw_options.owner (w.withdraw_options.data.getD [])] ∧
    encode_deposit ([] : List IncentiveKey) = encodeIncentiveKeyArray [] ∧
    (encode_deposit ([] : List IncentiveKey)).length = 64 :=
  ⟨rfl, rfl, rfl, by
    show (encodeIncentiveKeyArray ([] : List IncentiveKey)).length = 64
    simp [encodeIncentiveKeyArray, abiWord_length]⟩

/-- Claim C8: the bare-tuple deposit encoding of a single key is never
byte-identical to the dynamic-array-of-tuples encoding of any key list (the
former is 160 bytes; the latter is 64 + 160·N bytes). -/
theorem bare_tuple_ne_array_encoding (k : IncentiveKey)
    (ks : List IncentiveKey) :
    encode_deposit [k] ≠ encodeIncentiveKeyArray ks := by
  intro hEq
  have h1 : (encode_deposit [k]).length = 160 := encode_incentive_key_length k
  have h2 : (encodeIncentiveKeyArray ks).length = 64 + 160 * ks.length := by
    simp only [encodeIncentiveKeyArray, List.length_append, abiWord_length,
      flatten_map_encode_incentive_key_length]
  rw [hEq, h2] at h1
  omega

/-- Witness for C8: on `[testKey]` itself the two encoding shapes differ. -/
theorem bare_tuple_ne_array_encoding_witness :
    encode_deposit [testKey] ≠ encodeIncentiveKeyArray [testKey] :=
  bare_tuple_ne_array_encoding testKey [testKey]

/-- Claim C9: for every key list and `FullWithdrawOptions`, the final
payload of `withdraw_token` is a withdraw call on the claim options' token
id, sent to the withdraw options' owner, with the provided callback bytes
(empty when absent), and it is the only withdraw-selector payload. -/
theorem withdraw_token_final_payload (ks : List IncentiveKey)
    (w : FullWithdrawOptions) :
    (withdraw_token_calldatas ks w).getLast? =
      some (encodeWithdrawTokenCall w.claim_options.token_id
        w.withdraw_options.owner (w.withdraw_options.data.getD [])) ∧
    (withdraw_token_calldatas ks w).countP
      (fun c => c.take 4 == withdrawTokenSelector) = 1 := by
  constructor
  · rw [withdraw_token_calldatas_eq]
    exact List.getLast?_concat _
  · rw [withdraw_token_calldatas_eq, List.countP_append]
    have h0 : (ks.flatMap (fun k => encode_claim k w.claim_options)).countP
        (fun c => c.take 4 == withdrawTokenSelector) = 0 := by
      refine List.countP_eq_zero.mpr ?_
      intro c hc
      obtain ⟨k, -, hck⟩ := List.mem_flatMap.mp hc
      simp only [encode_claim, List.mem_cons, List.mem_singleton,
        List.not_mem_nil, or_false] at hck
      rcases hck with h | h <;> subst h
      · simp only [take4_encodeUnstakeTokenCall]; decide
      · simp only [take4_encodeClaimRewardCall]; decide
    rw [h0]
    have heq : (withdrawTokenSelector == withdrawTokenSelector) = true := by decide
    simp [List.countP_cons, take4_encodeWithdrawTokenCall, heq]

/-- Claim C10: on the empty key list `encode_deposit` does not fail: it
takes the dynamic-array branch and returns the encoding of an empty array
of key tuples — the 32-byte offset word, a zero length word and no
elements — not the 160-byte bare-tuple shape. -/
theorem encode_deposit_empty_list :
    encode_deposit ([] : List IncentiveKey) =
      abiWord 32 ++ abiWord 0 ++ ([] : List Nat) ∧
    (encode_deposit ([] : List IncentiveKey)).length = 64 ∧
    (encode_deposit ([] : List IncentiveKey)).length ≠ 160 :=
  ⟨rfl,
   by
    show (encodeIncentiveKeyArray ([] : List IncentiveKey)).length = 64
    simp [encodeIncentiveKeyArray, abiWord_length],
   by
    show (encodeIncentiveKeyArray ([] : List IncentiveKey)).length ≠ 160
    simp [encodeIncentiveKeyArray, abiWord_length]⟩

end Staker
